import Mathlib

/-!
Shallow embedding of the lexical scanner of `lox.rs` (files `src/scanner.rs`,
`src/tokens.rs`, `src/errors.rs`) together with proofs about it.

Modelling conventions:
* the source text is a `List Char` (Rust `&str` over Unicode scalar values);
* byte positions (`start`, `current`, the `CharIndices` offsets) are `Nat`
  byte indices computed from `Char.utf8Size`;
* every loop of the Rust code is embedded as a structurally recursive
  function over an explicit fuel argument, so the kernel can evaluate it;
  a wrapper instantiates the fuel with `rest.length + 1`, which is proved
  sufficient;
* a Rust panic (a failing `unwrap`, an out-of-bounds or non-boundary byte
  slice) is the distinguished result `Res.fail`; running out of fuel is
  `Res.out`;
* `f64` values are embedded as exactly rounded IEEE-754 binary64 numbers:
  a canonical mantissa/exponent pair of integers, with round-to-nearest,
  ties-to-even applied after every arithmetic operation.
-/

namespace Lox

/-! ## IEEE-754 binary64 value model -/

/-- Floor of the base-2 logarithm, computed with structural fuel so that the
kernel can reduce it (`Nat.log2` itself uses well-founded recursion). -/
def log2f : Nat → Nat → Nat
  | 0, _ => 0
  | f + 1, n => if 2 ≤ n then log2f f (n / 2) + 1 else 0

/-- Floor of the base-2 logarithm of `n` (zero for `n = 0`). -/
def natLog2 (n : Nat) : Nat := log2f n n

/-- Round `num / den` to the nearest integer, ties to even (`den > 0`). -/
def rnddiv (num den : Nat) : Nat :=
  let q := num / den
  let r := num % den
  if den < 2 * r then q + 1
  else if 2 * r < den then q
  else if q % 2 = 0 then q else q + 1

/-- Round `N / D / 2^e` to the nearest integer, ties to even. -/
def qAt (N D : Nat) (e : Int) : Nat :=
  if 0 ≤ e then rnddiv N (D * 2 ^ e.toNat)
  else rnddiv (N * 2 ^ (-e).toNat) D

/-- Canonical binary64 mantissa/exponent pair for the positive rational
`N / D`: a mantissa in `[2^52, 2^53)` for normal values, a mantissa below
`2^52` at exponent `-1074` for subnormal values.  Values beyond the largest
finite double are not clamped to infinity; the scanner claims never reach
that range. -/
def roundPos (N D : Nat) : Nat × Int :=
  let e0 : Int := (natLog2 N : Int) - (natLog2 D : Int) - 52
  let q := qAt N D e0
  let p :=
    if q < 2 ^ 52 then
      let q1 := qAt N D (e0 - 1)
      if q1 < 2 ^ 53 then (q1, e0 - 1) else (q1 / 2, e0)
    else if q = 2 ^ 53 then (2 ^ 52, e0 + 1)
    else (q, e0)
  if p.2 < -1074 then (qAt N D (-1074), -1074) else p

/-- An IEEE-754 binary64 value `m * 2^e` in canonical form. -/
structure F64 where
  m : Int
  e : Int
deriving DecidableEq, Repr

/-- Correctly rounded binary64 value of the rational `(num / den) * 2^e`
(round to nearest, ties to even).  Division by zero (which would produce an
IEEE infinity or NaN) is outside the model; the scanner only ever divides
by the constant `10.0`. -/
def roundQ (num den : Int) (e : Int) : F64 :=
  if num = 0 then ⟨0, 0⟩
  else
    let N := num.natAbs * (if 0 ≤ e then 2 ^ e.toNat else 1)
    let D := den.natAbs * (if 0 ≤ e then 1 else 2 ^ (-e).toNat)
    let p := roundPos N D
    if p.1 = 0 then ⟨0, 0⟩
    else if num * den < 0 then ⟨-(p.1 : Int), p.2⟩ else ⟨(p.1 : Int), p.2⟩

/-- The binary64 value of a natural number (`as f64` on a small integer). -/
def F64.ofNat (n : Nat) : F64 := roundQ n 1 0

/-- Binary64 addition, exactly rounded. -/
def fadd (a b : F64) : F64 :=
  let e := min a.e b.e
  roundQ (a.m * 2 ^ (a.e - e).toNat + b.m * 2 ^ (b.e - e).toNat) 1 e

/-- Binary64 multiplication, exactly rounded. -/
def fmul (a b : F64) : F64 := roundQ (a.m * b.m) 1 (a.e + b.e)

/-- Binary64 division, exactly rounded. -/
def fdiv (a b : F64) : F64 := roundQ a.m b.m (a.e - b.e)

/-- The binary64 value of the literal `0.1`. -/
def f64TenthLit : F64 := roundQ 1 10 0

/-- The binary64 value of the literal `10.0`. -/
def f64TenLit : F64 := F64.ofNat 10

/-! ## Diagnostics (`src/errors.rs`) -/

/-- One scanning diagnostic (`OwnError` in `errors.rs`): a line number, a
context label describing the scanning phase, and a message. -/
structure OwnError where
  line : Nat
  context : String
  msg : String
deriving DecidableEq, Repr

/-- The error type (`LoxError` in `errors.rs`).  The `Other` variant wraps a
boxed I/O error from the front end, modelled by its message; the scanner
itself only ever produces `Own` errors. -/
inductive LoxError where
  | Own (err : OwnError)
  | Other (msg : String)
deriving DecidableEq, Repr

/-- Model of `report_error(line, context, msg)` at a `String` message: it
always constructs the failure value. -/
def report_error {α : Type} (line : Nat) (context msg : String) :
    Except LoxError α :=
  .error (.Own ⟨line, context, msg⟩)

/-! ## Token model (`src/tokens.rs`) -/

/-- The closed set of token categories (`TokenType` in `tokens.rs`).
`Identifier` and `String` carry the borrowed source substring as a char
list; `Number` carries the decoded binary64 value. -/
inductive TokenType where
  | LeftParen | RightParen | LeftBrace | RightBrace
  | Comma | Dot | Minus | Plus | Semi | Slash | Star
  | Bang | BangEqual | Equal | EqualEqual
  | Greater | GreaterEqual | Less | LessEqual
  | Identifier (s : List Char)
  | String (s : List Char)
  | Number (value : F64)
  | And | Class | Else | False | Fun | For | If | Nil | Or | Print
  | Return | Super | This | True | Var | While
  | EOF
deriving DecidableEq, Repr

/-- A token (`Token` in `tokens.rs`): category, lexeme text and line.  The
field spelling `lexem` follows the source. -/
structure Token where
  which : TokenType
  lexem : List Char
  line : Nat
deriving DecidableEq, Repr

/-- The static keyword table (`KEYWORDS` in `scanner.rs`), as an association
list from spelling to keyword variant; `HashMap` lookup is exact key
equality, which `List.lookup` mirrors. -/
def KEYWORDS : List (List Char × TokenType) :=
  [ (['a','n','d'], .And)
  , (['c','l','a','s','s'], .Class)
  , (['e','l','s','e'], .Else)
  , (['f','a','l','s','e'], .False)
  , (['f','o','r'], .For)
  , (['f','u','n'], .Fun)
  , (['i','f'], .If)
  , (['n','i','l'], .Nil)
  , (['o','r'], .Or)
  , (['p','r','i','n','t'], .Print)
  , (['r','e','t','u','r','n'], .Return)
  , (['s','u','p','e','r'], .Super)
  , (['t','h','i','s'], .This)
  , (['t','r','u','e'], .True)
  , (['v','a','r'], .Var)
  , (['w','h','i','l','e'], .While)
  ]

/-! ## UTF-8 byte positions -/

/-- Number of bytes of the UTF-8 encoding of a char list. -/
def utf8Len (cs : List Char) : Nat := (cs.map Char.utf8Size).sum

/-- Split a char list at a byte offset: `some (pre, suf)` iff `n` is a char
boundary of the UTF-8 encoding (in particular `n` is at most the total byte
length); `none` otherwise. -/
def splitAtByte : List Char → Nat → Option (List Char × List Char)
  | cs, 0 => some ([], cs)
  | [], _ + 1 => none
  | c :: cs, n + 1 =>
    if c.utf8Size ≤ n + 1 then
      match splitAtByte cs (n + 1 - c.utf8Size) with
      | some (pre, suf) => some (c :: pre, suf)
      | none => none
    else none

/-- Model of `str::from_utf8(&source.as_bytes()[lo..hi]).unwrap()`: the
bytes from `lo` to `hi` decode back to a char list exactly when `lo ≤ hi`,
both are in bounds and both are char boundaries; every other case is a
panic (out-of-bounds slice or `from_utf8` failure), modelled as `none`. -/
def sliceBytes (src : List Char) (lo hi : Nat) : Option (List Char) :=
  if hi < lo then none
  else
    match splitAtByte src lo with
    | some (_, suf) =>
      match splitAtByte suf (hi - lo) with
      | some (mid, _) => some mid
      | none => none
    | none => none

/-! ## Scanner state (`src/scanner.rs`) -/

/-- The scanner state.  `rest` together with `offset` (the byte index of the
head of `rest`) models the `Peekable<CharIndices>` iterator over the source;
`start`, `current` and `line` are the corresponding fields of the Rust
struct, holding byte indices and the 1-based line counter. -/
structure Scanner where
  source : List Char
  rest : List Char
  offset : Nat
  start : Nat
  current : Nat
  line : Nat
  tokens : List Token
deriving DecidableEq, Repr

/-- `Scanner::new`. -/
def Scanner.new (source : List Char) : Scanner :=
  { source := source, rest := source, offset := 0, start := 0, current := 0,
    line := 1, tokens := [] }

/-- `Scanner::advance`: consume the next character, recording its byte index
in `current`; `none` at end of input. -/
def advance (s : Scanner) : Option (Char × Scanner) :=
  match s.rest with
  | [] => none
  | c :: r =>
    some (c, { s with rest := r, offset := s.offset + c.utf8Size,
                      current := s.offset })

/-- `Scanner::peek`: inspect the next character without consuming it. -/
def peek (s : Scanner) : Option Char :=
  match s.rest with
  | [] => none
  | c :: _ => some c

/-- `Scanner::peek_next`: clone the iterator, step once, peek. -/
def peek_next (s : Scanner) : Option Char :=
  match s.rest with
  | _ :: c :: _ => some c
  | _ => none

/-- `Scanner::matches`: report whether the next character equals `expected`.
Note that it only peeks; it never consumes the character. -/
def matches' (s : Scanner) (expected : Char) : Bool :=
  match peek s with
  | some observed => observed = expected
  | none => false

/-- `self.line += 1`. -/
def bump_line (s : Scanner) : Scanner := { s with line := s.line + 1 }

/-- `Scanner::add_token`: push `Token::new(which, "", self.line)`. -/
def add_token (s : Scanner) (which : TokenType) : Scanner :=
  { s with tokens := s.tokens ++ [⟨which, [], s.line⟩] }

/-- The result of running a piece of scanner code: `out` is exhausted fuel
(shown never to happen with fuel `rest.length + 1`), `fail` is a Rust panic
(a failing `unwrap` or byte slice), `ok` is normal completion. -/
inductive Res (α : Type) where
  | out : Res α
  | fail : Res α
  | ok : α → Res α
deriving DecidableEq, Repr

/-- Propagate `fail`/`out` and turn a sub-scanner's `Ok(())` into the
dispatcher's `Ok(true)` (the `?` operator followed by `Ok(true)`). -/
def lift_sub (r : Res (Scanner × Except LoxError Unit)) :
    Res (Scanner × Except LoxError Bool) :=
  match r with
  | .out => .out
  | .fail => .fail
  | .ok (s, .ok _) => .ok (s, .ok true)
  | .ok (s, .error e) => .ok (s, .error e)

/-! ## Character classes (`is_digit`, `is_alpha`, `is_alpha_numeric`) -/

/-- `is_digit` from `scanner.rs`. -/
def is_digit (c : Char) : Bool := '0' ≤ c && c ≤ '9'

/-- `is_alpha` from `scanner.rs`. -/
def is_alpha (c : Char) : Bool :=
  ('a' ≤ c && c ≤ 'z') || ('A' ≤ c && c ≤ 'Z') || c = '_'

/-- `is_alpha_numeric` from `scanner.rs`. -/
def is_alpha_numeric (c : Char) : Bool := is_digit c || is_alpha c

/-- Rust `char::to_digit(10)`: the digit value for `'0'..='9'`, else `None`. -/
def to_digit (c : Char) : Option Nat :=
  if is_digit c then some (c.toNat - '0'.toNat) else none

/-- The character `{` (written by code point to keep it out of the text). -/
def lbraceChar : Char := Char.ofNat 123

/-- The character `}` (written by code point to keep it out of the text). -/
def rbraceChar : Char := Char.ofNat 125

/-- The apostrophe character used by the `"unexpected character"` message. -/
def quoteChar : Char := Char.ofNat 39

/-- The message `format!("unexpected character '{}'", c)`. -/
def unexpected_char_msg (c : Char) : String :=
  "unexpected character " ++ String.singleton quoteChar ++
    String.singleton c ++ String.singleton quoteChar

/-! ## Sub-scanners -/

/-- `Scanner::scan_string`, with structural fuel.  Each iteration peeks,
counts an embedded newline, consumes the character (`advance().unwrap()`),
and stops after a closing quote, slicing the text strictly between the
quotes out of the source bytes; exhausting the input first reports the
`unterminated string` diagnostic at the line counter's current value. -/
def scan_string_fuel : Nat → Scanner → Res (Scanner × Except LoxError Unit)
  | 0, _ => .out
  | fuel + 1, s =>
    match peek s with
    | none =>
      .ok (s, report_error s.line "when reading a string" "unterminated string")
    | some c =>
      match advance (if c = '\n' then bump_line s else s) with
      | none => .fail
      | some (_, s2) =>
        if c = '"' then
          match sliceBytes s2.source (s2.start + 1) s2.current with
          | none => .fail
          | some substr => .ok (add_token s2 (.String substr), .ok ())
        else scan_string_fuel fuel s2

/-- `Scanner::scan_string` with sufficient fuel. -/
def scan_string (s : Scanner) : Res (Scanner × Except LoxError Unit) :=
  scan_string_fuel (s.rest.length + 1) s

/-- The loop of `Scanner::scan_number`, with structural fuel.  `number` is
the accumulated value and `fr` is `fractional_power_of_ten`.  A digit is
consumed and accumulated; a dot followed by a digit is consumed, entering
fractional mode or — when already fractional — reporting the
`unexpected dot` diagnostic; anything else ends the literal. -/
def scan_number_fuel :
    Nat → Scanner → F64 → Option F64 → Res (Scanner × Except LoxError F64)
  | 0, _, _, _ => .out
  | fuel + 1, s, number, fr =>
    match peek s with
    | none => .ok (s, .ok number)
    | some c =>
      if is_digit c then
        match advance s with
        | none => .fail
        | some (_, s2) =>
          match to_digit c with
          | none => .fail
          | some d =>
            let c_num := F64.ofNat d
            match fr with
            | some decimal =>
              scan_number_fuel fuel s2 (fadd number (fmul c_num decimal))
                (some (fdiv decimal f64TenLit))
            | none =>
              scan_number_fuel fuel s2 (fadd (fmul number f64TenLit) c_num) none
      else if c = '.' then
        match peek_next s with
        | some d =>
          if is_digit d then
            match advance s with
            | none => .fail
            | some (_, s2) =>
              if fr.isSome then
                .ok (s2, report_error s2.line "when parsing a number"
                  "unexpected dot")
              else scan_number_fuel fuel s2 number (some f64TenthLit)
          else .ok (s, .ok number)
        | none => .ok (s, .ok number)
      else .ok (s, .ok number)

/-- `Scanner::scan_number`: seed the accumulator with the already-consumed
first digit (`to_digit(10).unwrap() as f64`), run the loop, then emit the
`Number` token — unless the loop reported a diagnostic. -/
def scan_number (s : Scanner) (first_digit : Char) :
    Res (Scanner × Except LoxError Unit) :=
  match to_digit first_digit with
  | none => .fail
  | some d =>
    match scan_number_fuel (s.rest.length + 1) s (F64.ofNat d) none with
    | .out => .out
    | .fail => .fail
    | .ok (s2, .ok number) => .ok (add_token s2 (.Number number), .ok ())
    | .ok (s2, .error e) => .ok (s2, .error e)

/-- The loop of `Scanner::scan_identifier`, with structural fuel: consume
characters while they are alphanumeric. -/
def scan_identifier_fuel : Nat → Scanner → Res Scanner
  | 0, _ => .out
  | fuel + 1, s =>
    match peek s with
    | none => .ok s
    | some c =>
      if is_alpha_numeric c then
        match advance s with
        | none => .fail
        | some (_, s2) => scan_identifier_fuel fuel s2
      else .ok s

/-- `Scanner::scan_identifier`: consume the maximal alphanumeric run, slice
the span `start ..= current` out of the source bytes, and emit either the
keyword variant found in `KEYWORDS` or an `Identifier` token. -/
def scan_identifier (s : Scanner) : Res (Scanner × Except LoxError Unit) :=
  match scan_identifier_fuel (s.rest.length + 1) s with
  | .out => .out
  | .fail => .fail
  | .ok s2 =>
    match sliceBytes s2.source s2.start (s2.current + 1) with
    | none => .fail
    | some substr =>
      match List.lookup substr KEYWORDS with
      | some token => .ok (add_token s2 token, .ok ())
      | none => .ok (add_token s2 (.Identifier substr), .ok ())

/-- The comment loop of `scan_token`: consume characters up to, but not
including, the next newline. -/
def comment_fuel : Nat → Scanner → Res Scanner
  | 0, _ => .out
  | fuel + 1, s =>
    match peek s with
    | none => .ok s
    | some c =>
      if c ≠ '\n' then
        match advance s with
        | none => .fail
        | some (_, s2) => comment_fuel fuel s2
      else .ok s

/-- The comment loop with sufficient fuel. -/
def comment_loop (s : Scanner) : Res Scanner :=
  comment_fuel (s.rest.length + 1) s

/-! ## Token dispatch and the scan pass -/

/-- `Scanner::scan_token`: consume one character (`Ok(false)` at end of
input), set `start` to its byte index, and dispatch.  The arms appear in
the order of the Rust `match`. -/
def scan_token (s : Scanner) : Res (Scanner × Except LoxError Bool) :=
  match advance s with
  | none => .ok (s, .ok false)
  | some (c, s0) =>
    let s1 : Scanner := { s0 with start := s0.current }
    if c = '(' then .ok (add_token s1 .LeftParen, .ok true)
    else if c = ')' then .ok (add_token s1 .RightParen, .ok true)
    else if c = lbraceChar then .ok (add_token s1 .LeftBrace, .ok true)
    else if c = rbraceChar then .ok (add_token s1 .RightBrace, .ok true)
    else if c = ',' then .ok (add_token s1 .Comma, .ok true)
    else if c = '.' then .ok (add_token s1 .Dot, .ok true)
    else if c = '-' then .ok (add_token s1 .Minus, .ok true)
    else if c = '+' then .ok (add_token s1 .Plus, .ok true)
    else if c = ';' then .ok (add_token s1 .Semi, .ok true)
    else if c = '*' then .ok (add_token s1 .Star, .ok true)
    else if c = '!' then
      .ok (add_token s1 (if matches' s1 '=' then .BangEqual else .Bang),
        .ok true)
    else if c = '=' then
      .ok (add_token s1 (if matches' s1 '=' then .EqualEqual else .Equal),
        .ok true)
    else if c = '<' then
      .ok (add_token s1 (if matches' s1 '=' then .LessEqual else .Less),
        .ok true)
    else if c = '>' then
      .ok (add_token s1 (if matches' s1 '=' then .GreaterEqual else .Greater),
        .ok true)
    else if c = '/' then
      if matches' s1 '/' then
        match comment_loop s1 with
        | .out => .out
        | .fail => .fail
        | .ok s2 => .ok (s2, .ok true)
      else .ok (add_token s1 .Slash, .ok true)
    else if c = ' ' ∨ c = '\t' ∨ c = '\r' then .ok (s1, .ok true)
    else if c = '"' then lift_sub (scan_string s1)
    else if is_digit c then lift_sub (scan_number s1 c)
    else if is_alpha c then lift_sub (scan_identifier s1)
    else if c = '\n' then .ok (bump_line s1, .ok true)
    else .ok (s1, report_error s1.line "parsing" (unexpected_char_msg c))

/-- The loop of `Scanner::scan_tokens`, with structural fuel: run
`scan_token` until it reports end of input, collecting every diagnostic. -/
def scan_tokens_fuel :
    Nat → Scanner → List LoxError → Res (Scanner × List LoxError)
  | 0, _, _ => .out
  | fuel + 1, s, errors =>
    match scan_token s with
    | .out => .out
    | .fail => .fail
    | .ok (s2, .ok true) => scan_tokens_fuel fuel s2 errors
    | .ok (s2, .ok false) => .ok (s2, errors)
    | .ok (s2, .error e) => scan_tokens_fuel fuel s2 (errors ++ [e])

/-- `Scanner::scan_tokens` on a freshly constructed scanner: run the loop,
append the EOF token at the final line, and return the token sequence when
no diagnostics were collected, the diagnostic list otherwise. -/
def scan_tokens (src : List Char) : Res (Except (List LoxError) (List Token)) :=
  match scan_tokens_fuel (src.length + 1) (Scanner.new src) [] with
  | .out => .out
  | .fail => .fail
  | .ok (s, errors) =>
    let tokens := s.tokens ++ [⟨.EOF, [], s.line⟩]
    .ok (if errors.isEmpty then .ok tokens else .error errors)

/-- Decidable equality for `Except`, used to evaluate concrete scans. -/
instance {ε α : Type} [DecidableEq ε] [DecidableEq α] :
    DecidableEq (Except ε α) := fun a b =>
  match a, b with
  | .ok a, .ok b =>
    if h : a = b then isTrue (by rw [h]) else isFalse (fun hh => by cases hh; exact h rfl)
  | .error a, .error b =>
    if h : a = b then isTrue (by rw [h]) else isFalse (fun hh => by cases hh; exact h rfl)
  | .ok _, .error _ => isFalse (fun hh => by cases hh)
  | .error _, .ok _ => isFalse (fun hh => by cases hh)

/-! ## Byte-length and character facts -/

theorem utf8Len_nil : utf8Len [] = 0 := rfl

theorem utf8Len_cons (c : Char) (cs : List Char) :
    utf8Len (c :: cs) = c.utf8Size + utf8Len cs := by
  simp [utf8Len]

theorem utf8Len_append (a b : List Char) :
    utf8Len (a ++ b) = utf8Len a + utf8Len b := by
  simp [utf8Len]

/-- An ASCII character occupies one UTF-8 byte. -/
theorem utf8Size_eq_one {c : Char} (h : c.val.toNat ≤ 127) : c.utf8Size = 1 := by
  unfold Char.utf8Size
  dsimp only
  rw [if_pos]
  exact h

/-- Alphanumeric characters (in the scanner's ASCII sense) are one byte. -/
theorem alnum_utf8Size {c : Char} (h : is_alpha_numeric c = true) :
    c.utf8Size = 1 := by
  apply utf8Size_eq_one
  simp only [is_alpha_numeric, is_digit, is_alpha, Bool.or_eq_true,
    Bool.and_eq_true, decide_eq_true_eq] at h
  rcases h with ⟨_, h2⟩ | (⟨_, h2⟩ | ⟨_, h2⟩) | rfl
  · have h3 : c.val.toNat ≤ 57 := Char.le_def.mp h2; omega
  · have h3 : c.val.toNat ≤ 122 := Char.le_def.mp h2; omega
  · have h3 : c.val.toNat ≤ 90 := Char.le_def.mp h2; omega
  · decide

theorem alnum_ne_newline {c : Char} (h : is_alpha_numeric c = true) :
    ¬ c = '\n' := by
  intro hc; subst hc; simp [is_alpha_numeric, is_digit, is_alpha] at h

theorem digit_ne_newline {c : Char} (h : is_digit c = true) : ¬ c = '\n' := by
  intro hc; subst hc; simp [is_digit] at h

theorem digit_alnum {c : Char} (h : is_digit c = true) :
    is_alpha_numeric c = true := by
  simp [is_alpha_numeric, h]

theorem alpha_alnum {c : Char} (h : is_alpha c = true) :
    is_alpha_numeric c = true := by
  simp [is_alpha_numeric, h]

theorem digit_to_digit {c : Char} (h : is_digit c = true) :
    to_digit c = some (c.toNat - '0'.toNat) := by
  simp [to_digit, h]

/-! ## Slice facts -/

theorem splitAtByte_append :
    ∀ (xs ys : List Char), splitAtByte (xs ++ ys) (utf8Len xs) = some (xs, ys) := by
  intro xs
  induction xs with
  | nil => intro ys; rw [utf8Len_nil]; simp [splitAtByte]
  | cons c xs ih =>
    intro ys
    have hpos := Char.utf8Size_pos c
    have hlen : utf8Len (c :: xs) = (c.utf8Size + utf8Len xs - 1) + 1 := by
      rw [utf8Len_cons]; omega
    rw [hlen]
    simp only [List.cons_append, splitAtByte]
    rw [if_pos (by omega)]
    have harg : c.utf8Size + utf8Len xs - 1 + 1 - c.utf8Size = utf8Len xs := by
      omega
    simp only [List.append_eq]
    rw [harg, ih]

theorem sliceBytes_append (a mid z : List Char) :
    sliceBytes (a ++ mid ++ z) (utf8Len a) (utf8Len a + utf8Len mid) =
      some mid := by
  unfold sliceBytes
  rw [if_neg (by omega)]
  have h1 : a ++ mid ++ z = a ++ (mid ++ z) := by simp
  rw [h1, splitAtByte_append a (mid ++ z)]
  have h2 : utf8Len a + utf8Len mid - utf8Len a = utf8Len mid := by omega
  dsimp only
  rw [h2, splitAtByte_append mid z]

/-! ## Cursor facts -/

theorem advance_nil {s : Scanner} (h : s.rest = []) : advance s = none := by
  simp [advance, h]

theorem advance_cons {s : Scanner} {c : Char} {r : List Char}
    (h : s.rest = c :: r) :
    advance s = some (c, { s with rest := r, offset := s.offset + c.utf8Size,
                                  current := s.offset }) := by
  simp [advance, h]

theorem peek_nil {s : Scanner} (h : s.rest = []) : peek s = none := by
  simp [peek, h]

theorem peek_cons {s : Scanner} {c : Char} {r : List Char} (h : s.rest = c :: r) :
    peek s = some c := by
  simp [peek, h]

/-! ## The string sub-scanner -/

/-- Unfolding of the string loop at a closing quote. -/
theorem scan_string_fuel_quote {f : Nat} {s : Scanner} {r : List Char}
    (h : s.rest = '"' :: r) :
    scan_string_fuel (f + 1) s =
      match sliceBytes s.source (s.start + 1) s.offset with
      | none => .fail
      | some substr =>
        .ok ({ s with
                 rest := r
                 offset := s.offset + 1
                 current := s.offset
                 tokens := s.tokens ++ [⟨.String substr, [], s.line⟩] },
             .ok ()) := by
  have hsz : ('"' : Char).utf8Size = 1 := by decide
  simp [scan_string_fuel, peek, h, advance, add_token, hsz]

/-- Unfolding of the string loop at a non-quote character. -/
theorem scan_string_fuel_step {f : Nat} {s : Scanner} {c : Char} {r : List Char}
    (h : s.rest = c :: r) (hq : ¬ c = '"') :
    scan_string_fuel (f + 1) s =
      scan_string_fuel f
        { s with
            rest := r
            offset := s.offset + c.utf8Size
            current := s.offset
            line := if c = '\n' then s.line + 1 else s.line } := by
  by_cases hc : c = '\n'
  · subst hc
    simp [scan_string_fuel, peek, h, advance, bump_line, hq]
  · simp [scan_string_fuel, peek, h, advance, bump_line, hq, hc]

/-- Postcondition of `scan_string` given the byte-position facts that hold
when it is entered from `scan_token`: it never panics, consumes a prefix of
`rest`, keeps byte offsets consistent, counts consumed newlines into `line`,
and appends only non-EOF tokens with empty lexemes. -/
theorem scan_string_spec :
    ∀ (f : Nat) (s : Scanner) (a mid : List Char),
    s.rest.length < f →
    s.source = a ++ mid ++ s.rest →
    s.start + 1 = utf8Len a →
    s.offset = utf8Len a + utf8Len mid →
    ∃ s2 r mid2 new,
      scan_string_fuel f s = .ok (s2, r) ∧
      s.rest = mid2 ++ s2.rest ∧
      s2.source = s.source ∧
      s2.offset = s.offset + utf8Len mid2 ∧
      s2.line = s.line + mid2.count '\n' ∧
      s2.tokens = s.tokens ++ new ∧
      ∀ t ∈ new, t.lexem = [] ∧ t.which ≠ TokenType.EOF := by
  intro f
  induction f with
  | zero => intro s a mid h; omega
  | succ f ih =>
    intro s a mid hf hsrc hstart hoff
    cases hr : s.rest with
    | nil =>
      refine ⟨s, report_error s.line "when reading a string" "unterminated string",
        [], [], ?_, by simp [hr], rfl, by simp [utf8Len_nil], by simp, by simp,
        by simp⟩
      simp [scan_string_fuel, peek, hr]
    | cons c r =>
      by_cases hq : c = '"'
      · subst hq
        rw [scan_string_fuel_quote hr]
        have hslice : sliceBytes s.source (s.start + 1) s.offset = some mid := by
          rw [hsrc, hr, hstart, hoff]
          exact sliceBytes_append a mid _
        rw [hslice]
        refine ⟨_, _, ['"'], [⟨.String mid, [], s.line⟩], rfl, by simp [hr],
          rfl, ?_, ?_, rfl, ?_⟩
        · simp [utf8Len_cons, utf8Len_nil]; decide
        · simp
        · simp
      · rw [scan_string_fuel_step hr hq]
        have hlen : r.length < f := by
          rw [hr] at hf; simpa using Nat.lt_of_succ_lt_succ hf
        have hsrc2 : s.source = a ++ (mid ++ [c]) ++ r := by
          rw [hsrc, hr]; simp
        have hoff2 : s.offset + c.utf8Size = utf8Len a + utf8Len (mid ++ [c]) := by
          rw [hoff, utf8Len_append, utf8Len_cons, utf8Len_nil]; omega
        obtain ⟨s2, rr, mid2, new, h1, h2, h3, h4, h5, h6, h7⟩ :=
          ih { s with
                 rest := r
                 offset := s.offset + c.utf8Size
                 current := s.offset
                 line := if c = '\n' then s.line + 1 else s.line }
            a (mid ++ [c]) hlen hsrc2 hstart hoff2
        refine ⟨s2, rr, c :: mid2, new, h1, by simpa using h2, h3, ?_,
          ?_, by simpa using h6, h7⟩
        · rw [h4]; simp only [utf8Len_cons]; omega
        · rw [h5]
          by_cases hc : c = '\n'
          · simp [hc, List.count_cons]
            omega
          · simp [hc, List.count_cons]

/-- When no closing quote remains, the string sub-scanner reports the
`unterminated string` diagnostic at the line reached after counting every
remaining newline — the line active at end of input. -/
theorem scan_string_unterminated :
    ∀ (f : Nat) (s : Scanner), s.rest.length < f →
    (∀ c ∈ s.rest, ¬ c = '"') →
    ∃ s2, scan_string_fuel f s =
      .ok (s2, .error (.Own ⟨s.line + s.rest.count '\n',
        "when reading a string", "unterminated string"⟩)) := by
  intro f
  induction f with
  | zero => intro s h; omega
  | succ f ih =>
    intro s hf hq
    cases hr : s.rest with
    | nil =>
      refine ⟨s, ?_⟩
      simp [scan_string_fuel, peek, hr, report_error]
    | cons c r =>
      have hcq : ¬ c = '"' := hq c (by rw [hr]; simp)
      rw [scan_string_fuel_step hr hcq]
      have hlen : r.length < f := by
        rw [hr] at hf; simpa using Nat.lt_of_succ_lt_succ hf
      obtain ⟨s2, h1⟩ :=
        ih { s with
               rest := r
               offset := s.offset + c.utf8Size
               current := s.offset
               line := if c = '\n' then s.line + 1 else s.line }
          hlen (fun x hx => hq x (by rw [hr]; exact List.mem_cons_of_mem c hx))
      refine ⟨s2, ?_⟩
      rw [h1]
      have : (if c = '\n' then s.line + 1 else s.line) + r.count '\n' =
          s.line + (c :: r).count '\n' := by
        by_cases hc : c = '\n'
        · simp [hc, List.count_cons]
          omega
        · simp [hc, List.count_cons]
      simp only [this]

/-! ## The number sub-scanner -/

/-- Postcondition of the number loop: it never panics, consumes a prefix of
`rest` containing no newline, and leaves `line`, `tokens` and `source`
unchanged. -/
theorem scan_number_loop_spec :
    ∀ (f : Nat) (s : Scanner) (number : F64) (fr : Option F64),
    s.rest.length < f →
    ∃ s2 r mid2,
      scan_number_fuel f s number fr = .ok (s2, r) ∧
      s.rest = mid2 ++ s2.rest ∧
      s2.source = s.source ∧
      s2.offset = s.offset + utf8Len mid2 ∧
      mid2.count '\n' = 0 ∧
      s2.line = s.line ∧
      s2.tokens = s.tokens := by
  intro f
  induction f with
  | zero => intro s number fr h; omega
  | succ f ih =>
    intro s number fr hf
    cases hr : s.rest with
    | nil =>
      refine ⟨s, .ok number, [], ?_, by simp [hr], rfl, by simp [utf8Len_nil],
        by simp, rfl, rfl⟩
      simp [scan_number_fuel, peek, hr]
    | cons c r =>
      have hlen : r.length < f := by
        rw [hr] at hf; simpa using Nat.lt_of_succ_lt_succ hf
      by_cases hd : is_digit c = true
      · -- digit branch: consume and recurse
        have hstep : ∀ (num2 : F64) (fr2 : Option F64),
            ∃ s2 r2 mid2,
              scan_number_fuel f
                { s with
                    rest := r
                    offset := s.offset + c.utf8Size
                    current := s.offset } num2 fr2 = .ok (s2, r2) ∧
              r = mid2 ++ s2.rest ∧
              s2.source = s.source ∧
              s2.offset = s.offset + c.utf8Size + utf8Len mid2 ∧
              mid2.count '\n' = 0 ∧
              s2.line = s.line ∧
              s2.tokens = s.tokens := by
          intro num2 fr2
          exact ih _ num2 fr2 hlen
        have hcnl : ¬ c = '\n' := digit_ne_newline hd
        cases fr with
        | some decimal =>
          obtain ⟨s2, r2, mid2, h1, h2, h3, h4, h5, h6, h7⟩ :=
            hstep (fadd number (fmul (F64.ofNat (c.toNat - 48)) decimal))
              (some (fdiv decimal f64TenLit))
          refine ⟨s2, r2, c :: mid2, ?_, by simpa using h2, h3, ?_, ?_, h6, h7⟩
          · simpa [scan_number_fuel, peek, hr, advance, hd, to_digit] using h1
          · rw [h4, utf8Len_cons]; omega
          · simp [List.count_cons, hcnl, h5]
        | none =>
          obtain ⟨s2, r2, mid2, h1, h2, h3, h4, h5, h6, h7⟩ :=
            hstep (fadd (fmul number f64TenLit) (F64.ofNat (c.toNat - 48)))
              none
          refine ⟨s2, r2, c :: mid2, ?_, by simpa using h2, h3, ?_, ?_, h6, h7⟩
          · simpa [scan_number_fuel, peek, hr, advance, hd, to_digit] using h1
          · rw [h4, utf8Len_cons]; omega
          · simp [List.count_cons, hcnl, h5]
      · by_cases hdot : c = '.'
        · subst hdot
          -- dot branch: look one further character ahead
          cases hr2 : r with
          | nil =>
            refine ⟨s, .ok number, [], ?_, by simp [hr, hr2], rfl,
              by simp [utf8Len_nil], by simp, rfl, rfl⟩
            simp [scan_number_fuel, peek, hr, hd, peek_next, hr2]
          | cons d r2 =>
            by_cases hdd : is_digit d = true
            · -- consume the dot
              have hdnl : ¬ ('.' : Char) = '\n' := by decide
              cases fr with
              | some decimal =>
                refine ⟨{ s with
                            rest := r
                            offset := s.offset + ('.' : Char).utf8Size
                            current := s.offset },
                  report_error s.line "when parsing a number" "unexpected dot",
                  ['.'], ?_, by simp [hr, hr2], rfl,
                  by simp [utf8Len_cons, utf8Len_nil], by simp, rfl, rfl⟩
                simp [scan_number_fuel, peek, hr, hd, peek_next, hr2, hdd,
                  advance, report_error]
              | none =>
                obtain ⟨s2, r2', mid2, h1, h2, h3, h4, h5, h6, h7⟩ :=
                  ih { s with
                         rest := r
                         offset := s.offset + ('.' : Char).utf8Size
                         current := s.offset } number (some f64TenthLit) hlen
                rw [hr2] at h1
                refine ⟨s2, r2', '.' :: mid2, ?_, by simpa [hr2] using h2, h3,
                  ?_, ?_, h6, h7⟩
                · simp [scan_number_fuel, peek, hr, hd, peek_next, hr2, hdd,
                    advance, h1]
                · rw [h4]; dsimp only; rw [utf8Len_cons]; omega
                · simp [List.count_cons, h5]
            · refine ⟨s, .ok number, [], ?_, by simp [hr, hr2], rfl,
                by simp [utf8Len_nil], by simp, rfl, rfl⟩
              simp [scan_number_fuel, peek, hr, hd, peek_next, hr2, hdd]
        · refine ⟨s, .ok number, [], ?_, by simp [hr], rfl,
            by simp [utf8Len_nil], by simp, rfl, rfl⟩
          simp [scan_number_fuel, peek, hr, hd, hdot]

/-- A dot followed by a digit, reached while the literal is already in
fractional mode, is consumed and then reported as the `unexpected dot`
diagnostic at the current line; no `Number` token is emitted by the loop. -/
theorem scan_number_second_dot (f : Nat) (s : Scanner) (number decimal : F64)
    (d : Char) (r2 : List Char) (hr : s.rest = '.' :: d :: r2)
    (hd : is_digit d = true) :
    scan_number_fuel (f + 1) s number (some decimal) =
      .ok ({ s with
               rest := d :: r2
               offset := s.offset + ('.' : Char).utf8Size
               current := s.offset },
        .error (.Own ⟨s.line, "when parsing a number", "unexpected dot"⟩)) := by
  have hnd : is_digit '.' = false := by decide
  simp [scan_number_fuel, peek, hr, peek_next, hd, hnd, advance, report_error]

/-- Postcondition of `Scanner::scan_number` entered on a first digit: it
never panics, consumes a newline-free prefix, keeps the line, and appends
at most one `Number` token. -/
theorem scan_number_spec (s : Scanner) (c : Char) (hd : is_digit c = true) :
    ∃ s2 r mid2 new,
      scan_number s c = .ok (s2, r) ∧
      s.rest = mid2 ++ s2.rest ∧
      s2.source = s.source ∧
      s2.offset = s.offset + utf8Len mid2 ∧
      mid2.count '\n' = 0 ∧
      s2.line = s.line ∧
      s2.tokens = s.tokens ++ new ∧
      ∀ t ∈ new, t.lexem = [] ∧ t.which ≠ TokenType.EOF := by
  unfold scan_number
  rw [digit_to_digit hd]
  dsimp only
  obtain ⟨s2, r, mid2, h1, h2, h3, h4, h5, h6, h7⟩ :=
    scan_number_loop_spec (s.rest.length + 1) s
      (F64.ofNat (c.toNat - '0'.toNat)) none (by omega)
  rw [h1]
  cases r with
  | ok number =>
    refine ⟨add_token s2 (.Number number), .ok (), mid2,
      [⟨.Number number, [], s2.line⟩], rfl, h2, h3, h4, h5, ?_, ?_, ?_⟩
    · simpa [add_token] using h6
    · simp [add_token, h7]
    · simp
  | error e =>
    exact ⟨s2, .error e, mid2, [], rfl, h2, h3, h4, h5, h6, by simp [h7],
      by simp⟩

/-! ## The identifier sub-scanner -/

/-- The token category `scan_identifier` produces for a recognized span:
the keyword variant from the table on a hit, else `Identifier`. -/
def identKind (cs : List Char) : TokenType :=
  match List.lookup cs KEYWORDS with
  | some t => t
  | none => .Identifier cs

/-- Postcondition of the identifier loop: it consumes exactly the maximal
alphanumeric prefix of `rest` and maintains `current + 1 = offset`. -/
theorem scan_identifier_loop_spec :
    ∀ (f : Nat) (s : Scanner), s.rest.length < f → s.current + 1 = s.offset →
    ∃ s2, scan_identifier_fuel f s = .ok s2 ∧
      s2.source = s.source ∧ s2.start = s.start ∧ s2.line = s.line ∧
      s2.tokens = s.tokens ∧
      s2.rest = s.rest.dropWhile is_alpha_numeric ∧
      s2.offset = s.offset + utf8Len (s.rest.takeWhile is_alpha_numeric) ∧
      s2.current + 1 = s2.offset := by
  intro f
  induction f with
  | zero => intro s h; omega
  | succ f ih =>
    intro s hf hcur
    cases hr : s.rest with
    | nil =>
      refine ⟨s, ?_, rfl, rfl, rfl, rfl, by simp [hr], by simp [hr, utf8Len_nil],
        hcur⟩
      simp [scan_identifier_fuel, peek, hr]
    | cons c r =>
      by_cases ha : is_alpha_numeric c = true
      · have hlen : r.length < f := by
          rw [hr] at hf; simpa using Nat.lt_of_succ_lt_succ hf
        have hsz : c.utf8Size = 1 := alnum_utf8Size ha
        obtain ⟨s2, h1, h2, h3, h4, h5, h6, h7, h8⟩ :=
          ih { s with
                 rest := r
                 offset := s.offset + c.utf8Size
                 current := s.offset } hlen (by dsimp only; omega)
        refine ⟨s2, ?_, h2, h3, h4, h5, ?_, ?_, h8⟩
        · simpa [scan_identifier_fuel, peek, hr, ha, advance] using h1
        · rw [h6]; simp [List.dropWhile_cons, ha]
        · rw [h7]; dsimp only
          simp [List.takeWhile_cons, ha, utf8Len_cons]
          omega
      · refine ⟨s, ?_, rfl, rfl, rfl, rfl, ?_, ?_, hcur⟩
        · simp [scan_identifier_fuel, peek, hr, ha]
        · rw [hr]; simp [List.dropWhile_cons, ha]
        · simp [List.takeWhile_cons, ha, utf8Len_nil]

/-- Postcondition of `Scanner::scan_identifier` given the byte-position
facts established by `scan_token`: the maximal alphanumeric run is
consumed, the byte slice recovers `mid` (the already consumed characters of
the lexeme) followed by that run, and one keyword/identifier token is
appended. -/
theorem scan_identifier_spec (s : Scanner) (a mid : List Char)
    (hsrc : s.source = a ++ mid ++ s.rest)
    (hstart : s.start = utf8Len a)
    (hoff : s.offset = utf8Len a + utf8Len mid)
    (hcur : s.current + 1 = s.offset) :
    ∃ s2, scan_identifier s = .ok (s2, .ok ()) ∧
      s2.source = s.source ∧
      s.rest = s.rest.takeWhile is_alpha_numeric ++ s2.rest ∧
      s2.offset = s.offset + utf8Len (s.rest.takeWhile is_alpha_numeric) ∧
      s2.line = s.line ∧
      s2.tokens = s.tokens ++
        [⟨identKind (mid ++ s.rest.takeWhile is_alpha_numeric), [], s.line⟩] := by
  unfold scan_identifier
  obtain ⟨s2, h1, hsrc2, hstart2, hline2, htok2, hrest2, hoff2, hcur2⟩ :=
    scan_identifier_loop_spec (s.rest.length + 1) s (by omega) hcur
  rw [h1]
  dsimp only
  have hsplit : s.rest.takeWhile is_alpha_numeric ++
      s.rest.dropWhile is_alpha_numeric = s.rest :=
    List.takeWhile_append_dropWhile is_alpha_numeric s.rest
  have hslice : sliceBytes s2.source s2.start (s2.current + 1) =
      some (mid ++ s.rest.takeWhile is_alpha_numeric) := by
    rw [hsrc2, hstart2, hcur2, hoff2, hstart, hoff, hsrc]
    have e1 : a ++ mid ++ s.rest =
        a ++ (mid ++ s.rest.takeWhile is_alpha_numeric) ++
          s.rest.dropWhile is_alpha_numeric := by
      conv_lhs => rw [← hsplit]
      simp
    have e2 : utf8Len a + utf8Len mid +
        utf8Len (s.rest.takeWhile is_alpha_numeric) =
        utf8Len a + utf8Len (mid ++ s.rest.takeWhile is_alpha_numeric) := by
      rw [utf8Len_append]; omega
    rw [e1, e2]
    exact sliceBytes_append _ _ _
  rw [hslice]
  have hrest3 : s.rest = s.rest.takeWhile is_alpha_numeric ++ s2.rest := by
    rw [hrest2, hsplit]
  cases hk : List.lookup (mid ++ s.rest.takeWhile is_alpha_numeric) KEYWORDS with
  | some t =>
    refine ⟨add_token s2 t, by simp [hk], by simp [add_token, hsrc2], ?_, ?_,
      ?_, ?_⟩
    · simpa [add_token] using hrest3
    · simpa [add_token] using hoff2
    · simp [add_token, hline2]
    · simp [add_token, htok2, hline2, identKind, hk]
  | none =>
    refine ⟨add_token s2 (.Identifier (mid ++ s.rest.takeWhile is_alpha_numeric)),
      by simp [hk], by simp [add_token, hsrc2], ?_, ?_, ?_, ?_⟩
    · simpa [add_token] using hrest3
    · simpa [add_token] using hoff2
    · simp [add_token, hline2]
    · simp [add_token, htok2, hline2, identKind, hk]

/-! ## The comment loop -/

/-- Postcondition of the comment loop: it consumes a newline-free prefix of
`rest` and changes nothing else. -/
theorem comment_spec :
    ∀ (f : Nat) (s : Scanner), s.rest.length < f →
    ∃ s2 mid2, comment_fuel f s = .ok s2 ∧
      s.rest = mid2 ++ s2.rest ∧
      s2.source = s.source ∧
      s2.offset = s.offset + utf8Len mid2 ∧
      mid2.count '\n' = 0 ∧
      s2.line = s.line ∧
      s2.tokens = s.tokens := by
  intro f
  induction f with
  | zero => intro s h; omega
  | succ f ih =>
    intro s hf
    cases hr : s.rest with
    | nil =>
      refine ⟨s, [], ?_, by simp [hr], rfl, by simp [utf8Len_nil], by simp,
        rfl, rfl⟩
      simp [comment_fuel, peek, hr]
    | cons c r =>
      by_cases hc : c = '\n'
      · subst hc
        refine ⟨s, [], ?_, by simp [hr], rfl, by simp [utf8Len_nil], by simp,
          rfl, rfl⟩
        simp [comment_fuel, peek, hr]
      · have hlen : r.length < f := by
          rw [hr] at hf; simpa using Nat.lt_of_succ_lt_succ hf
        obtain ⟨s2, mid2, h1, h2, h3, h4, h5, h6, h7⟩ :=
          ih { s with
                 rest := r
                 offset := s.offset + c.utf8Size
                 current := s.offset } hlen
        refine ⟨s2, c :: mid2, ?_, by simpa using h2, h3, ?_, ?_, h6, h7⟩
        · simpa [comment_fuel, peek, hr, hc, advance] using h1
        · rw [h4]; dsimp only; rw [utf8Len_cons]; omega
        · simp [List.count_cons, hc, h5]

/-! ## The dispatcher -/

/-- A hit in the keyword table is never the EOF marker. -/
theorem lookup_keywords_ne_eof {cs : List Char} {t : TokenType}
    (h : List.lookup cs KEYWORDS = some t) : ¬ t = TokenType.EOF := by
  simp only [KEYWORDS, List.lookup] at h
  repeat' split at h
  all_goals first
  | (cases h; decide)
  | simp at h

/-- The identifier sub-scanner never emits the EOF marker. -/
theorem identKind_ne_eof (cs : List Char) : ¬ identKind cs = TokenType.EOF := by
  unfold identKind
  cases hk : List.lookup cs KEYWORDS with
  | some t => exact lookup_keywords_ne_eof hk
  | none => simp

/-- The shape of the conclusion of `scan_token_spec`. -/
def TokenStep (s s2 : Scanner) (r : Except LoxError Bool)
    (mid2 : List Char) (new : List Token) : Prop :=
  s.rest = mid2 ++ s2.rest ∧
  s2.source = s.source ∧
  s2.offset = s.offset + utf8Len mid2 ∧
  s2.line = s.line + mid2.count '\n' ∧
  s2.tokens = s.tokens ++ new ∧
  (∀ t ∈ new, t.lexem = [] ∧ t.which ≠ TokenType.EOF) ∧
  (r = .ok false → mid2 = [] ∧ s2 = s ∧ s.rest = []) ∧
  (¬ r = .ok false → mid2 ≠ [])

/-- A single-token dispatch arm satisfies the step conclusion. -/
theorem emit_step {s : Scanner} {c : Char} {r : List Char} {tt : TokenType}
    (hr : s.rest = c :: r) (htt : ¬ tt = TokenType.EOF) (hcn : ¬ c = '\n') :
    TokenStep s
      (add_token { s with rest := r, offset := s.offset + c.utf8Size,
                          current := s.offset, start := s.offset } tt)
      (.ok true) [c] [⟨tt, [], s.line⟩] := by
  refine ⟨by simp [hr, add_token], by simp [add_token], ?_, ?_,
    by simp [add_token], ?_, ?_, ?_⟩
  · simp [add_token, utf8Len_cons, utf8Len_nil]
  · simp [add_token, List.count_cons, hcn]
  · simp [htt]
  · intro h; simp at h
  · intro h; simp

/-- Postcondition of `Scanner::scan_token` on a well-formed state: it never
panics, it consumes a (non-empty, unless the input was exhausted) prefix of
`rest`, it keeps the byte offset and the line counter consistent with the
consumed characters, and it appends only non-EOF tokens with empty
lexemes. -/
theorem scan_token_spec (s : Scanner) (pre : List Char)
    (hsrc : s.source = pre ++ s.rest)
    (hoff : s.offset = utf8Len pre) :
    ∃ s2 r mid2 new,
      scan_token s = .ok (s2, r) ∧ TokenStep s s2 r mid2 new := by
  cases hr : s.rest with
  | nil =>
    refine ⟨s, .ok false, [], [], by simp [scan_token, advance, hr],
      by simp [hr], rfl, by simp [utf8Len_nil], by simp, by simp, by simp,
      fun _ => ⟨rfl, rfl, hr⟩, fun h => absurd rfl h⟩
  | cons c r =>
    unfold scan_token
    rw [advance_cons hr]
    dsimp only
    by_cases h1 : c = '('
    · rw [if_pos h1]; subst h1
      exact ⟨_, _, _, _, rfl, emit_step hr (by decide) (by decide)⟩
    rw [if_neg h1]
    by_cases h2 : c = ')'
    · rw [if_pos h2]; subst h2
      exact ⟨_, _, _, _, rfl, emit_step hr (by decide) (by decide)⟩
    rw [if_neg h2]
    by_cases h3 : c = lbraceChar
    · rw [if_pos h3]; subst h3
      exact ⟨_, _, _, _, rfl, emit_step hr (by decide) (by decide)⟩
    rw [if_neg h3]
    by_cases h4 : c = rbraceChar
    · rw [if_pos h4]; subst h4
      exact ⟨_, _, _, _, rfl, emit_step hr (by decide) (by decide)⟩
    rw [if_neg h4]
    by_cases h5 : c = ','
    · rw [if_pos h5]; subst h5
      exact ⟨_, _, _, _, rfl, emit_step hr (by decide) (by decide)⟩
    rw [if_neg h5]
    by_cases h6 : c = '.'
    · rw [if_pos h6]; subst h6
      exact ⟨_, _, _, _, rfl, emit_step hr (by decide) (by decide)⟩
    rw [if_neg h6]
    by_cases h7 : c = '-'
    · rw [if_pos h7]; subst h7
      exact ⟨_, _, _, _, rfl, emit_step hr (by decide) (by decide)⟩
    rw [if_neg h7]
    by_cases h8 : c = '+'
    · rw [if_pos h8]; subst h8
      exact ⟨_, _, _, _, rfl, emit_step hr (by decide) (by decide)⟩
    rw [if_neg h8]
    by_cases h9 : c = ';'
    · rw [if_pos h9]; subst h9
      exact ⟨_, _, _, _, rfl, emit_step hr (by decide) (by decide)⟩
    rw [if_neg h9]
    by_cases h10 : c = '*'
    · rw [if_pos h10]; subst h10
      exact ⟨_, _, _, _, rfl, emit_step hr (by decide) (by decide)⟩
    rw [if_neg h10]
    by_cases h11 : c = '!'
    · rw [if_pos h11]; subst h11
      exact ⟨_, _, _, _, rfl, emit_step hr (by split <;> decide) (by decide)⟩
    rw [if_neg h11]
    by_cases h12 : c = '='
    · rw [if_pos h12]; subst h12
      exact ⟨_, _, _, _, rfl, emit_step hr (by split <;> decide) (by decide)⟩
    rw [if_neg h12]
    by_cases h13 : c = '<'
    · rw [if_pos h13]; subst h13
      exact ⟨_, _, _, _, rfl, emit_step hr (by split <;> decide) (by decide)⟩
    rw [if_neg h13]
    by_cases h14 : c = '>'
    · rw [if_pos h14]; subst h14
      exact ⟨_, _, _, _, rfl, emit_step hr (by split <;> decide) (by decide)⟩
    rw [if_neg h14]
    by_cases h15 : c = '/'
    · rw [if_pos h15]; subst h15
      by_cases hm : matches' ⟨s.source, r, s.offset + ('/' : Char).utf8Size, s.offset, s.offset, s.line, s.tokens⟩ '/' = true
      · rw [if_pos hm]
        obtain ⟨s2, mid2, hcf, hrest2, hsrc2, hoff2, hcount2, hline2, htok2⟩ :=
          comment_spec (r.length + 1)
            ⟨s.source, r, s.offset + ('/' : Char).utf8Size, s.offset, s.offset, s.line, s.tokens⟩
            (by dsimp only; omega)
        unfold comment_loop
        dsimp only
        rw [hcf]
        refine ⟨s2, .ok true, '/' :: mid2, [], rfl, ?_, hsrc2, ?_, ?_,
          by simpa using htok2, by simp, by intro h; simp at h, by intro h; simp⟩
        · rw [hr]; simpa using hrest2
        · rw [hoff2]; dsimp only; rw [utf8Len_cons]; omega
        · rw [hline2]; dsimp only
          simp [List.count_cons, hcount2]
      · rw [if_neg hm]
        exact ⟨_, _, _, _, rfl, emit_step hr (by decide) (by decide)⟩
    rw [if_neg h15]
    by_cases h16 : c = ' ' ∨ c = '\t' ∨ c = '\r'
    · rw [if_pos h16]
      have hcn : ¬ c = '\n' := by
        rcases h16 with rfl | rfl | rfl <;> decide
      refine ⟨_, .ok true, [c], [], rfl, by simp [hr], rfl, ?_, ?_, by simp,
        by simp, by intro h; simp at h, by intro h; simp⟩
      · simp [utf8Len_cons, utf8Len_nil]
      · simp [List.count_cons, hcn]
    rw [if_neg h16]
    by_cases h17 : c = '"'
    · rw [if_pos h17]; subst h17
      have hq1 : ('"' : Char).utf8Size = 1 := by decide
      obtain ⟨s2, rr, mid2, new, hsf, hrest2, hsrc2, hoff2, hline2, htok2, hok2⟩ :=
        scan_string_spec (r.length + 1)
          ⟨s.source, r, s.offset + ('"' : Char).utf8Size, s.offset, s.offset, s.line, s.tokens⟩
          (pre ++ ['"']) [] (by dsimp only; omega)
          (by dsimp only; rw [hsrc, hr]; simp)
          (by dsimp only; rw [hoff, utf8Len_append, utf8Len_cons, utf8Len_nil]
              omega)
          (by dsimp only; rw [hoff]
              simp [utf8Len_append, utf8Len_cons, utf8Len_nil])
      unfold scan_string
      dsimp only
      rw [hsf]
      have hrest3 : s.rest = ('"' :: mid2) ++ s2.rest := by
        rw [hr]; simpa using hrest2
      have hoff3 : s2.offset = s.offset + utf8Len ('"' :: mid2) := by
        rw [hoff2]; dsimp only; rw [utf8Len_cons]; omega
      have hline3 : s2.line = s.line + ('"' :: mid2).count '\n' := by
        rw [hline2]; dsimp only; simp [List.count_cons]
      have htok3 : s2.tokens = s.tokens ++ new := by simpa using htok2
      cases rr with
      | ok u =>
        exact ⟨s2, .ok true, '"' :: mid2, new, rfl, hrest3, hsrc2, hoff3,
          hline3, htok3, hok2, by intro h; simp at h, by intro h; simp⟩
      | error e =>
        exact ⟨s2, .error e, '"' :: mid2, new, rfl, hrest3, hsrc2, hoff3,
          hline3, htok3, hok2, by intro h; simp at h, by intro h; simp⟩
    rw [if_neg h17]
    by_cases h18 : is_digit c = true
    · rw [if_pos h18]
      obtain ⟨s2, rr, mid2, new, hsf, hrest2, hsrc2, hoff2, hcount2, hline2,
        htok2, hok2⟩ :=
        scan_number_spec
          ⟨s.source, r, s.offset + c.utf8Size, s.offset, s.offset, s.line, s.tokens⟩ c h18
      rw [hsf]
      have hcn : ¬ c = '\n' := digit_ne_newline h18
      have hrest3 : s.rest = (c :: mid2) ++ s2.rest := by
        rw [hr]; simpa using hrest2
      have hoff3 : s2.offset = s.offset + utf8Len (c :: mid2) := by
        rw [hoff2]; dsimp only; rw [utf8Len_cons]; omega
      have hline3 : s2.line = s.line + (c :: mid2).count '\n' := by
        rw [hline2]; dsimp only; simp [List.count_cons, hcount2, hcn]
      have htok3 : s2.tokens = s.tokens ++ new := by simpa using htok2
      cases rr with
      | ok u =>
        exact ⟨s2, .ok true, c :: mid2, new, rfl, hrest3, hsrc2, hoff3,
          hline3, htok3, hok2, by intro h; simp at h, by intro h; simp⟩
      | error e =>
        exact ⟨s2, .error e, c :: mid2, new, rfl, hrest3, hsrc2, hoff3,
          hline3, htok3, hok2, by intro h; simp at h, by intro h; simp⟩
    rw [if_neg h18]
    by_cases h19 : is_alpha c = true
    · rw [if_pos h19]
      have hsz : c.utf8Size = 1 := alnum_utf8Size (alpha_alnum h19)
      obtain ⟨s2, hsf, hsrc2, hrest2, hoff2, hline2, htok2⟩ :=
        scan_identifier_spec
          ⟨s.source, r, s.offset + c.utf8Size, s.offset, s.offset, s.line, s.tokens⟩
          pre [c]
          (by dsimp only; rw [hsrc, hr]; simp)
          (by dsimp only; rw [hoff])
          (by dsimp only; rw [hoff, utf8Len_cons, utf8Len_nil]; omega)
          (by dsimp only; omega)
      rw [hsf]
      refine ⟨s2, .ok true, c :: List.takeWhile is_alpha_numeric r,
        [⟨identKind (c :: List.takeWhile is_alpha_numeric r), [], s.line⟩],
        rfl, ?_, hsrc2, ?_, ?_, ?_, ?_, by intro h; simp at h,
        by intro h; simp⟩
      · rw [hr]; simpa using hrest2
      · rw [hoff2]; dsimp only; rw [utf8Len_cons]; omega
      · rw [hline2]; dsimp only
        have hcn : ¬ c = '\n' := alnum_ne_newline (alpha_alnum h19)
        have hcount : (c :: List.takeWhile is_alpha_numeric r).count '\n' = 0 := by
          rw [List.count_cons]
          have : List.count '\n' (List.takeWhile is_alpha_numeric r) = 0 := by
            rw [List.count_eq_zero]
            intro hmem
            exact alnum_ne_newline (List.mem_takeWhile_imp hmem) rfl
          simp [this, hcn]
        simp [hcount]
      · rw [htok2]; dsimp only; simp
      · intro t ht
        simp at ht
        subst ht
        exact ⟨rfl, identKind_ne_eof _⟩
    rw [if_neg h19]
    by_cases h20 : c = '\n'
    · rw [if_pos h20]; subst h20
      refine ⟨_, .ok true, ['\n'], [], rfl, by simp [hr, bump_line], rfl, ?_,
        ?_, by simp [bump_line], by simp, by intro h; simp at h,
        by intro h; simp⟩
      · simp [bump_line, utf8Len_cons, utf8Len_nil]
      · simp [bump_line, List.count_cons]
    rw [if_neg h20]
    refine ⟨_, report_error s.line "parsing" (unexpected_char_msg c), [c], [],
      rfl, by simp [hr], rfl, ?_, ?_, by simp, by simp,
      by intro h; simp [report_error] at h, by intro h; simp⟩
    · simp [utf8Len_cons, utf8Len_nil]
    · simp [List.count_cons, h20]

/-! ## The scan pass -/

/-- Postcondition of the `scan_tokens` loop: with fuel beyond the remaining
input length it always completes (no panic, no fuel exhaustion), exhausts
the input, adds the newline count of the remaining input to the line
counter, appends only non-EOF tokens with empty lexemes, and only ever
appends diagnostics to the collected list. -/
theorem scan_tokens_loop_spec :
    ∀ (f : Nat) (s : Scanner) (errs : List LoxError) (pre : List Char),
    s.rest.length < f →
    s.source = pre ++ s.rest →
    s.offset = utf8Len pre →
    ∃ s2 errs2 new,
      scan_tokens_fuel f s errs = .ok (s2, errs2) ∧
      s2.rest = [] ∧
      s2.source = s.source ∧
      s2.line = s.line + s.rest.count '\n' ∧
      s2.tokens = s.tokens ++ new ∧
      (∀ t ∈ new, t.lexem = [] ∧ t.which ≠ TokenType.EOF) ∧
      ∃ newErrs, errs2 = errs ++ newErrs := by
  intro f
  induction f with
  | zero => intro s errs pre h; omega
  | succ f ih =>
    intro s errs pre hf hsrc hoff
    obtain ⟨s2, r, mid2, new, hst, hrest, hsrc2, hoff2, hline2, htok2, hTokOk,
      hokf, hne⟩ := scan_token_spec s pre hsrc hoff
    have hcnt : s.rest.count '\n' = mid2.count '\n' + s2.rest.count '\n' := by
      rw [hrest, List.count_append]
    cases r with
    | ok b =>
      cases b with
      | false =>
        obtain ⟨hmid, hs2, hsrest⟩ := hokf rfl
        subst hs2
        refine ⟨s2, errs, [], ?_, hsrest, rfl, by simp [hsrest], by simp,
          by simp, ⟨[], by simp⟩⟩
        simp only [scan_tokens_fuel]
        rw [hst]
      | true =>
        have hmne : mid2 ≠ [] := hne (by simp)
        have hlen2 : s2.rest.length < f := by
          have h1 : s.rest.length = mid2.length + s2.rest.length := by
            rw [hrest, List.length_append]
          have h2 : 1 ≤ mid2.length := by
            cases mid2 with
            | nil => exact absurd rfl hmne
            | cons _ _ => simp
          omega
        obtain ⟨s3, errs2, new2, h1, h2, h3, h4, h5, h6, newErrs, h7⟩ :=
          ih s2 errs (pre ++ mid2) hlen2
            (by rw [hsrc2, hsrc, hrest]; simp)
            (by rw [hoff2, hoff, utf8Len_append])
        refine ⟨s3, errs2, new ++ new2, ?_, h2, by rw [h3, hsrc2], ?_, ?_, ?_,
          newErrs, h7⟩
        · simp only [scan_tokens_fuel]
          rw [hst]
          exact h1
        · rw [h4, hline2, hcnt]; omega
        · rw [h5, htok2, List.append_assoc]
        · intro t ht
          rcases List.mem_append.mp ht with h | h
          · exact hTokOk t h
          · exact h6 t h
    | error e =>
      have hmne : mid2 ≠ [] := hne (by simp)
      have hlen2 : s2.rest.length < f := by
        have h1 : s.rest.length = mid2.length + s2.rest.length := by
          rw [hrest, List.length_append]
        have h2 : 1 ≤ mid2.length := by
          cases mid2 with
          | nil => exact absurd rfl hmne
          | cons _ _ => simp
        omega
      obtain ⟨s3, errs2, new2, h1, h2, h3, h4, h5, h6, newErrs, h7⟩ :=
        ih s2 (errs ++ [e]) (pre ++ mid2) hlen2
          (by rw [hsrc2, hsrc, hrest]; simp)
          (by rw [hoff2, hoff, utf8Len_append])
      refine ⟨s3, errs2, new ++ new2, ?_, h2, by rw [h3, hsrc2], ?_, ?_, ?_,
        [e] ++ newErrs, by rw [h7, List.append_assoc]⟩
      · simp only [scan_tokens_fuel]
        rw [hst]
        exact h1
      · rw [h4, hline2, hcnt]; omega
      · rw [h5, htok2, List.append_assoc]
      · intro t ht
        rcases List.mem_append.mp ht with h | h
        · exact hTokOk t h
        · exact h6 t h

/-- Master lemma about one whole scan pass: the loop completes, ends on the
empty rest with the line counter at one plus the newline count of the
source, produces only non-EOF tokens with empty lexemes, and `scan_tokens`
returns the token list (with the EOF token appended) exactly when no
diagnostics were collected, the collected diagnostic list otherwise. -/
theorem scan_tokens_spec (src : List Char) :
    ∃ s2 errs new,
      scan_tokens_fuel (src.length + 1) (Scanner.new src) [] = .ok (s2, errs) ∧
      s2.rest = [] ∧
      s2.line = 1 + src.count '\n' ∧
      s2.tokens = new ∧
      (∀ t ∈ new, t.lexem = [] ∧ t.which ≠ TokenType.EOF) ∧
      scan_tokens src =
        .ok (if errs.isEmpty then .ok (new ++ [⟨.EOF, [], s2.line⟩])
             else .error errs) := by
  obtain ⟨s2, errs, new, h1, h2, h3, h4, h5, h6, newErrs, h7⟩ :=
    scan_tokens_loop_spec (src.length + 1) (Scanner.new src) [] []
      (by simp [Scanner.new]) (by simp [Scanner.new]) (by simp [Scanner.new, utf8Len_nil])
  refine ⟨s2, errs, new, h1, h2, by simpa [Scanner.new] using h4,
    by simpa [Scanner.new] using h5, h6, ?_⟩
  unfold scan_tokens
  rw [h1]
  simp [Scanner.new, h5]

/-! ## The dispatch arm for identifiers -/

theorem alpha_not_digit {c : Char} (h : is_alpha c = true) :
    ¬ is_digit c = true := by
  intro hd
  simp only [is_digit, Bool.and_eq_true, decide_eq_true_eq] at hd
  simp only [is_alpha, Bool.or_eq_true, Bool.and_eq_true, decide_eq_true_eq] at h
  have hd2 : c.val.toNat ≤ 57 := Char.le_def.mp hd.2
  rcases h with (⟨h1, _⟩ | ⟨h1, _⟩) | rfl
  · have h3 : (97 : Nat) ≤ c.val.toNat := Char.le_def.mp h1; omega
  · have h3 : (65 : Nat) ≤ c.val.toNat := Char.le_def.mp h1; omega
  · exact absurd hd2 (by decide)

/-- On an alphabetic head character, `scan_token` takes the
identifier/keyword arm. -/
theorem scan_token_alpha (s : Scanner) (c : Char) (r : List Char)
    (hr : s.rest = c :: r) (ha : is_alpha c = true) :
    scan_token s = lift_sub (scan_identifier
      ⟨s.source, r, s.offset + c.utf8Size, s.offset, s.offset, s.line,
        s.tokens⟩) := by
  unfold scan_token
  rw [advance_cons hr]
  dsimp only
  rw [if_neg (fun h => by subst h; exact absurd ha (by decide))]
  rw [if_neg (fun h => by subst h; exact absurd ha (by decide))]
  rw [if_neg (fun h => by subst h; exact absurd ha (by decide))]
  rw [if_neg (fun h => by subst h; exact absurd ha (by decide))]
  rw [if_neg (fun h => by subst h; exact absurd ha (by decide))]
  rw [if_neg (fun h => by subst h; exact absurd ha (by decide))]
  rw [if_neg (fun h => by subst h; exact absurd ha (by decide))]
  rw [if_neg (fun h => by subst h; exact absurd ha (by decide))]
  rw [if_neg (fun h => by subst h; exact absurd ha (by decide))]
  rw [if_neg (fun h => by subst h; exact absurd ha (by decide))]
  rw [if_neg (fun h => by subst h; exact absurd ha (by decide))]
  rw [if_neg (fun h => by subst h; exact absurd ha (by decide))]
  rw [if_neg (fun h => by subst h; exact absurd ha (by decide))]
  rw [if_neg (fun h => by subst h; exact absurd ha (by decide))]
  rw [if_neg (fun h => by subst h; exact absurd ha (by decide))]
  rw [if_neg (fun h => by
    rcases h with h | h | h <;> (subst h; exact absurd ha (by decide)))]
  rw [if_neg (fun h => by subst h; exact absurd ha (by decide))]
  rw [if_neg (alpha_not_digit ha)]
  rw [if_pos ha]

/-- Keyword-table entries are never `Identifier` payload variants. -/
def isIdentTT : TokenType → Bool
  | .Identifier _ => true
  | _ => false

/-! ## Claims -/

/-- C1: the claim says a two-character operator consumes both characters
and emits exactly one token, so that scanning `"!="` yields exactly
BangEqual then EOF.  The code's `matches` helper only peeks and never
consumes, so the `=` is scanned again: the actual output on `"!="` is
BangEqual, Equal, EOF. -/
theorem C1_two_char_operator_eval :
    scan_tokens ['!', '='] =
      .ok (.ok [⟨.BangEqual, [], 1⟩, ⟨.Equal, [], 1⟩, ⟨.EOF, [], 1⟩]) := by
  rfl

/-- C2 (counterexample): on the unterminated string input `"\"\n"` the
diagnostic is recorded at line 2 — the line reached after the embedded
newline — not at line 1, the line of the opening quote. -/
theorem C2_unterminated_line_counterexample :
    scan_tokens ['"', '\n'] =
      .ok (.error [.Own ⟨2, "when reading a string", "unterminated string"⟩]) ∧
    ¬ (2 = 1) := by
  exact ⟨rfl, by decide⟩

/-- C2 (amended): when the input is exhausted before a closing quote, the
scan records the diagnostic `unterminated string` with context
`when reading a string`, at the line active when the end of input is
reached — the line of the opening quote plus the number of newline
characters in the unterminated remainder. -/
theorem C2_unterminated_line_amended (s : Scanner)
    (h : ∀ c ∈ s.rest, ¬ c = '"') :
    ∃ s2, scan_string s =
      .ok (s2, .error (.Own ⟨s.line + s.rest.count '\n',
        "when reading a string", "unterminated string"⟩)) := by
  unfold scan_string
  exact scan_string_unterminated (s.rest.length + 1) s (by omega) h

/-- C2 (witness): the amended statement at the concrete scanner state
reached after the opening quote of the input `"\"\n"`. -/
theorem C2_unterminated_line_amended_witness :
    (∀ c ∈ (['\n'] : List Char), ¬ c = '"') ∧
    ∃ s2, scan_string ⟨['"', '\n'], ['\n'], 1, 0, 0, 1, []⟩ =
      .ok (s2, .error (.Own ⟨1 + (['\n'] : List Char).count '\n',
        "when reading a string", "unterminated string"⟩)) :=
  ⟨by decide, C2_unterminated_line_amended ⟨['"', '\n'], ['\n'], 1, 0, 0, 1, []⟩
    (by decide)⟩

/-- C3 (counterexample): scanning `"+"` produces a Plus token whose lexeme
field is the empty string, not the substring `"+"` it was recognized
from. -/
theorem C3_lexeme_counterexample :
    scan_tokens ['+'] = .ok (.ok [⟨.Plus, [], 1⟩, ⟨.EOF, [], 1⟩]) ∧
    ¬ (([] : List Char) = ['+']) := by
  exact ⟨rfl, by decide⟩

/-- C3 (amended): every token produced by a successful scan carries the
empty string in its lexeme field — `add_token` always passes `""`, so the
lexeme is never populated with the matched substring (for EOF the empty
string coincides with the claim). -/
theorem C3_lexeme_amended (src : List Char) (toks : List Token)
    (hscan : scan_tokens src = .ok (.ok toks)) :
    ∀ t ∈ toks, t.lexem = [] := by
  intro t ht
  obtain ⟨s2, errs, new, h1, h2, h3, h4, h5, h6⟩ := scan_tokens_spec src
  rw [hscan] at h6
  by_cases he : errs.isEmpty
  · rw [if_pos he] at h6
    simp only [Res.ok.injEq, Except.ok.injEq] at h6
    subst h6
    rcases List.mem_append.mp ht with hm | hm
    · exact (h5 t hm).1
    · simp at hm
      subst hm
      rfl
  · rw [if_neg he] at h6
    simp at h6

/-- C3 (witness): the amended statement applied to the scan of `"+"`. -/
theorem C3_lexeme_amended_witness :
    (⟨TokenType.Plus, [], 1⟩ : Token).lexem = [] :=
  C3_lexeme_amended ['+'] [⟨.Plus, [], 1⟩, ⟨.EOF, [], 1⟩] rfl
    ⟨.Plus, [], 1⟩ (by simp)

/-- C4: on every successful scan the token sequence ends in exactly one EOF
token, no other token is EOF, and the EOF line number is one plus the
number of newline characters of the input. -/
theorem C4_eof_terminated (src : List Char) (toks : List Token)
    (hscan : scan_tokens src = .ok (.ok toks)) :
    ∃ pre2, toks = pre2 ++ [⟨TokenType.EOF, [], 1 + src.count '\n'⟩] ∧
      ∀ t ∈ pre2, ¬ t.which = TokenType.EOF := by
  obtain ⟨s2, errs, new, h1, h2, h3, h4, h5, h6⟩ := scan_tokens_spec src
  rw [hscan] at h6
  by_cases he : errs.isEmpty
  · rw [if_pos he] at h6
    simp only [Res.ok.injEq, Except.ok.injEq] at h6
    subst h6
    rw [h3]
    exact ⟨new, rfl, fun t ht => (h5 t ht).2⟩
  · rw [if_neg he] at h6
    simp at h6

/-- C4 (witness): the EOF property applied to the scan of the empty
input. -/
theorem C4_eof_terminated_witness :
    ∃ pre2, [(⟨TokenType.EOF, [], 1⟩ : Token)] =
        pre2 ++ [⟨TokenType.EOF, [], 1 + ([] : List Char).count '\n'⟩] ∧
      ∀ t ∈ pre2, ¬ t.which = TokenType.EOF :=
  C4_eof_terminated [] [⟨TokenType.EOF, [], 1⟩] rfl

/-- C5: a scan pass always runs to the end of the input; it returns the
token sequence exactly when the collected diagnostic list is empty, and
otherwise returns that non-empty diagnostic list (collected left to right
by the loop), the two outcomes being mutually exclusive. -/
theorem C5_result_dichotomy (src : List Char) :
    ∃ s2 errs,
      scan_tokens_fuel (src.length + 1) (Scanner.new src) [] = .ok (s2, errs) ∧
      s2.rest = [] ∧
      ((errs = [] ∧
        scan_tokens src = .ok (.ok (s2.tokens ++ [⟨.EOF, [], s2.line⟩]))) ∨
       (errs ≠ [] ∧ scan_tokens src = .ok (.error errs))) := by
  obtain ⟨s2, errs, new, h1, h2, h3, h4, h5, h6⟩ := scan_tokens_spec src
  refine ⟨s2, errs, h1, h2, ?_⟩
  by_cases he : errs.isEmpty
  · left
    refine ⟨List.isEmpty_iff.mp he, ?_⟩
    rw [h6, if_pos he, h4]
  · right
    refine ⟨fun hnil => he (by simp [hnil]), ?_⟩
    rw [h6, if_neg he]

set_option maxRecDepth 200000 in
/-- C6: the numeric literal round-trips.  `F64.ofNat 423298` is the
binary64 value of the literal `423298.0`, and `roundQ 1234 100 0` is the
binary64 value of the literal `12.34` (the nearest double to 1234/100). -/
theorem C6_numeric_round_trips :
    scan_tokens ['4','2','3','2','9','8'] =
      .ok (.ok [⟨.Number (F64.ofNat 423298), [], 1⟩, ⟨.EOF, [], 1⟩]) ∧
    scan_tokens ['4','2','3','2','9','8','.','0'] =
      .ok (.ok [⟨.Number (F64.ofNat 423298), [], 1⟩, ⟨.EOF, [], 1⟩]) ∧
    scan_tokens ['4','2','3','2','9','8','.'] =
      .ok (.ok [⟨.Number (F64.ofNat 423298), [], 1⟩, ⟨.Dot, [], 1⟩,
                ⟨.EOF, [], 1⟩]) ∧
    scan_tokens [' ','1','2','.','3','4',' ',' '] =
      .ok (.ok [⟨.Number (roundQ 1234 100 0), [], 1⟩, ⟨.EOF, [], 1⟩]) := by
  exact ⟨rfl, rfl, rfl, rfl⟩

/-- C7: a second decimal point reached in fractional mode is reported as
the diagnostic `unexpected dot` with context `when parsing a number` at the
current line, and the pass on `"1.2.3"` still terminates, returning its
diagnostic list. -/
theorem C7_second_dot :
    (∀ (f : Nat) (s : Scanner) (number decimal : F64) (d : Char)
      (r2 : List Char), s.rest = '.' :: d :: r2 → is_digit d = true →
      ∃ s2, scan_number_fuel (f + 1) s number (some decimal) =
          .ok (s2, .error (.Own ⟨s.line, "when parsing a number",
            "unexpected dot"⟩)) ∧
        s2.line = s.line) ∧
    scan_tokens ['1','.','2','.','3'] =
      .ok (.error [.Own ⟨1, "when parsing a number", "unexpected dot"⟩]) := by
  constructor
  · intro f s number decimal d r2 hr hd
    exact ⟨_, scan_number_second_dot f s number decimal d r2 hr hd, rfl⟩
  · rfl

/-- C7 (witness): the general statement at the state reached inside
`"1.2"`-style input with the fractional mode already entered and a second
`".2"` ahead. -/
theorem C7_second_dot_witness :
    ∃ s2, scan_number_fuel 3 ⟨['1','.','2'], ['.','2'], 1, 0, 0, 1, []⟩
        (F64.ofNat 1) (some f64TenthLit) =
        .ok (s2, .error (.Own ⟨1, "when parsing a number",
          "unexpected dot"⟩)) ∧
      s2.line = 1 :=
  C7_second_dot.1 2 ⟨['1','.','2'], ['.','2'], 1, 0, 0, 1, []⟩
    (F64.ofNat 1) f64TenthLit '2' [] rfl (by decide)

/-- One unfolding of the scan loop, by definition. -/
theorem scan_tokens_fuel_succ (f : Nat) (s : Scanner) (errs : List LoxError) :
    scan_tokens_fuel (f + 1) s errs =
      match scan_token s with
      | .out => .out
      | .fail => .fail
      | .ok (s2, .ok true) => scan_tokens_fuel f s2 errs
      | .ok (s2, .ok false) => .ok (s2, errs)
      | .ok (s2, .error e) => scan_tokens_fuel f s2 (errs ++ [e]) := rfl

/-- C8: a maximal alphanumeric run starting with a letter or underscore
scans to the keyword variant found in the table, else to an Identifier
carrying exactly the matched text (`identKind`); the sixteen keyword
spellings are pairwise distinct, map to pairwise distinct non-Identifier
variants, and each spelling looks up to exactly its own variant. -/
theorem C8_identifier_keyword :
    (∀ (c : Char) (cs : List Char), is_alpha c = true →
      (∀ x ∈ cs, is_alpha_numeric x = true) →
      scan_tokens (c :: cs) =
        .ok (.ok [⟨identKind (c :: cs), [], 1⟩, ⟨.EOF, [], 1⟩])) ∧
    (KEYWORDS.map Prod.fst).Pairwise (· ≠ ·) ∧
    (KEYWORDS.map Prod.snd).Pairwise (· ≠ ·) ∧
    KEYWORDS.all (fun kv => !isIdentTT kv.2) = true ∧
    KEYWORDS.all (fun kv => List.lookup kv.1 KEYWORDS == some kv.2) = true ∧
    KEYWORDS.length = 16 := by
  refine ⟨?_, by decide, by decide, by decide, by decide, by decide⟩
  intro c cs ha hcs
  have hsz : c.utf8Size = 1 := alnum_utf8Size (alpha_alnum ha)
  have htake : cs.takeWhile is_alpha_numeric = cs :=
    List.takeWhile_eq_self_iff.mpr hcs
  obtain ⟨s2, hid, hsrc2, hrest2, hoff2, hline2, htok2⟩ :=
    scan_identifier_spec ⟨c :: cs, cs, 0 + c.utf8Size, 0, 0, 1, []⟩ [] [c]
      (by simp) (by simp [utf8Len_nil]) (by simp [utf8Len_cons, utf8Len_nil])
      (by dsimp only; omega)
  dsimp only at hsrc2 hrest2 hoff2 hline2 htok2
  have hs2rest : s2.rest = [] := by
    rw [htake] at hrest2
    have hlen := congrArg List.length hrest2
    simp only [List.length_append] at hlen
    have : s2.rest.length = 0 := by omega
    exact List.length_eq_zero.mp this
  have htoks : s2.tokens = [⟨identKind (c :: cs), [], 1⟩] := by
    rw [htok2]
    simp [htake]
  have hline : s2.line = 1 := by simpa using hline2
  unfold scan_tokens
  have hfuel : (c :: cs).length + 1 = (cs.length + 1) + 1 := by simp
  rw [hfuel]
  have h1 : scan_token (Scanner.new (c :: cs)) =
      lift_sub (scan_identifier ⟨c :: cs, cs, 0 + c.utf8Size, 0, 0, 1, []⟩) :=
    scan_token_alpha (Scanner.new (c :: cs)) c cs rfl ha
  rw [scan_tokens_fuel_succ, h1, hid]
  dsimp only [lift_sub]
  have hsteof : scan_token s2 = .ok (s2, .ok false) := by
    unfold scan_token
    rw [advance_nil hs2rest]
  rw [scan_tokens_fuel_succ, hsteof]
  dsimp only
  rw [htoks, hline]
  simp

/-- C8 (witness): the identifier theorem applied at the keyword input
`"while"`. -/
theorem C8_identifier_keyword_witness :
    scan_tokens ['w','h','i','l','e'] =
      .ok (.ok [⟨identKind ['w','h','i','l','e'], [], 1⟩, ⟨.EOF, [], 1⟩]) :=
  C8_identifier_keyword.1 'w' ['h','i','l','e'] (by decide) (by decide)

/-- C9: the scan terminates — with any fuel exceeding the input length the
top-level loop of `scan_tokens` completes (it neither runs out of fuel nor
panics) having consumed the entire input. -/
theorem C9_scan_terminates (src : List Char) (fuel : Nat)
    (hf : src.length < fuel) :
    ∃ s2 errs, scan_tokens_fuel fuel (Scanner.new src) [] = .ok (s2, errs) ∧
      s2.rest = [] := by
  obtain ⟨s2, errs, new, h1, h2, _⟩ :=
    scan_tokens_loop_spec fuel (Scanner.new src) [] []
      (by simpa [Scanner.new] using hf) (by simp [Scanner.new])
      (by simp [Scanner.new, utf8Len_nil])
  exact ⟨s2, errs, h1, h2⟩

/-- C9 (witness): the termination statement at the input `"("` with fuel
2. -/
theorem C9_scan_terminates_witness :
    (['('] : List Char).length < 2 ∧
    ∃ s2 errs, scan_tokens_fuel 2 (Scanner.new ['(']) [] = .ok (s2, errs) ∧
      s2.rest = [] :=
  ⟨by decide, C9_scan_terminates ['('] 2 (by decide)⟩

/-- C10: the scan never panics on any input: every `unwrap` of `advance`
after a successful `peek`, every `to_digit(10).unwrap` on a checked digit,
and every byte-range slice taken for String and Identifier lexemes
succeeds, so the scan of any source text returns a result. -/
theorem C10_no_panic (src : List Char) :
    ∃ r, scan_tokens src = .ok r := by
  obtain ⟨s2, errs, new, h1, h2, h3, h4, h5, h6⟩ := scan_tokens_spec src
  exact ⟨_, h6⟩

end Lox
